import Mathlib

/-!
# Verification of the scraper pipeline (`scraper.py`)

Shallow embedding of the pure core of the Google-Maps lead scraper:
email extraction/selection, the site-quality classifier, the site
enricher's fetch loop, the dedup filter, the JSON checkpoint round
trip and the retrying batch writer.  Strings are handled through
explicit `List Char` helpers so that every definition evaluates by
kernel reduction.
-/

namespace Scraper

/-! ## String helpers

Python string primitives (`in`, `startswith`, `endswith`, `lower`,
`split`, `strip`) modelled on `List Char`. -/

/-- Boolean substring test on character lists. -/
def isSubListOf (needle : List Char) : List Char → Bool
  | [] => needle.isEmpty
  | c :: rest => needle.isPrefixOf (c :: rest) || isSubListOf needle rest

/-- Python `needle in hay` (substring test). -/
def containsStr (hay needle : String) : Bool :=
  isSubListOf needle.toList hay.toList

/-- Python `s.startswith (p)`. -/
def startsWithStr (s p : String) : Bool :=
  p.toList.isPrefixOf s.toList

/-- Python `s.endswith (p)`. -/
def endsWithStr (s p : String) : Bool :=
  p.toList.isSuffixOf s.toList

/-- Python `s.lower()` for the ASCII strings handled here. -/
def lowerStr (s : String) : String :=
  String.mk (s.toList.map Char.toLower)

/-- Python `s.split(sep)` for a one-character separator: auxiliary
accumulator form. -/
def splitOnCharAux (sep : Char) : List Char → List Char → List (List Char)
  | [], acc => [acc.reverse]
  | c :: rest, acc =>
    if c = sep then acc.reverse :: splitOnCharAux sep rest []
    else splitOnCharAux sep rest (c :: acc)

/-- Python `s.split(sep)` for a one-character separator. -/
def splitOnChar (sep : Char) (s : String) : List String :=
  (splitOnCharAux sep s.toList []).map String.mk

/-- Python `s.strip()` (ASCII whitespace on both ends). -/
def stripStr (s : String) : String :=
  String.mk (((s.toList.dropWhile Char.isWhitespace).reverse.dropWhile
    Char.isWhitespace).reverse)

/-- The suffix of `l` that follows the first occurrence of `sep`,
`none` when `sep` does not occur.  Used to model `urlparse`. -/
def dropThroughSep (sep : List Char) : List Char → Option (List Char)
  | [] => if sep.isEmpty then some [] else none
  | c :: rest =>
    if sep.isPrefixOf (c :: rest) then some ((c :: rest).drop sep.length)
    else dropThroughSep sep rest

/-- Modelled from `urllib.parse.urlparse(url).netloc` for the absolute
`scheme://host/...` URLs this program handles: the text between the
first `://` and the next `/`, `?` or `#`. -/
def netloc (url : String) : String :=
  match dropThroughSep "://".toList url.toList with
  | some rest =>
    String.mk (rest.takeWhile fun c => ¬ (c = '/' ∨ c = '?' ∨ c = '#'))
  | none => ""

/-- Modelled from `urllib.parse.urlparse(url).scheme != ""` for the
URLs this program handles (`enrich_with_site` only distinguishes
scheme-less host names from full `scheme://...` URLs). -/
def hasScheme (url : String) : Bool :=
  containsStr url "://"

/-! ## Email selector (`choose_best_email`, scraper.py lines 381-423) -/

/-- `blacklist_domains` from `choose_best_email`. -/
def blacklistDomains : List String :=
  ["wixpress.com", "sentry-next.wixpress.com", "sentry.io"]

/-- The `common` provider set from `choose_best_email`. -/
def commonProviders : List String :=
  ["gmail.com", "outlook.com", "hotmail.com", "yahoo.it", "yahoo.com",
   "virgilio.it"]

/-- `domain_of` from `choose_best_email`: lower-case the address, split
on `@`; the part after the `@` when the split has exactly two parts,
else the empty string. -/
def domain_of (email : String) : String :=
  match splitOnChar '@' (lowerStr email) with
  | [_, d] => d
  | _ => ""

/-- Python `email.split("@")[0]` (original case). -/
def localPart (email : String) : String :=
  (splitOnChar '@' email).headD ""

/-- The per-candidate filter of `choose_best_email` (the chain of
`continue` guards in the loop over `candidates`). -/
def surviveFilter (e : String) : Bool :=
  if e = "" then false
  else
    let user := localPart e
    let dom := domain_of e
    if dom = "" then false
    else if 40 < user.length then false
    else if blacklistDomains.contains dom || endsWithStr dom "wixpress.com"
        || endsWithStr dom "sentry.io" then false
    else if endsWithStr dom ".js" || containsStr dom ".js"
        || containsStr user ".js" then false
    else true

/-- `choose_best_email(candidates, website)`: line-by-line embedding of
scraper.py lines 381-423. -/
def choose_best_email (candidates : List String) (website : String) : String :=
  if candidates.isEmpty then ""
  else
    let site_domain := if website = "" then "" else lowerStr (netloc website)
    let filtered := candidates.filter surviveFilter
    if filtered.isEmpty then ""
    else
      let same_domain := filtered.filter fun e =>
        site_domain ≠ "" && containsStr site_domain (domain_of e)
      match same_domain with
      | e :: _ => e
      | [] =>
        let common_email := filtered.filter fun e =>
          commonProviders.contains (domain_of e)
        match common_email with
        | e :: _ => e
        | [] =>
          match filtered with
          | e :: _ => e
          | [] => ""

/-- The selector policy as the specification words it: drop failing
candidates, then first survivor on the website's host, else first
survivor on a common public provider, else the first survivor, else
the empty string. -/
def chooseBestEmailSpec (candidates : List String) (website : String) : String :=
  let siteHost := if website = "" then "" else lowerStr (netloc website)
  let survivors := candidates.filter surviveFilter
  match survivors.find? fun e => containsStr siteHost (domain_of e) with
  | some e => e
  | none =>
    match survivors.find? fun e => commonProviders.contains (domain_of e) with
    | some e => e
    | none => survivors.headD ""

/-! ## Site quality classifier (`assess_site_quality`, lines 426-506)

The HTML parsing done by BeautifulSoup is abstracted into `SoupFacts`:
one field per soup query the function performs.  `assess_site_quality`
itself is translated statement by statement over these facts. -/

/-- The results of the BeautifulSoup queries performed by
`assess_site_quality` on the fetched document. -/
structure SoupFacts where
  /-- `soup.find("meta", {"name": "viewport"})` is not `None`. -/
  hasViewportMeta : Bool
  /-- `soup.find("meta", {"name": "description"})` is not `None`. -/
  hasDescriptionMeta : Bool
  /-- `soup.find("link", rel=... "icon" in v)` is not `None`. -/
  hasIconLink : Bool
  /-- `s.get("src").lower()` for every script tag with a `src`. -/
  scriptSrcs : List String
  /-- `str(s).lower()` for every script tag (framework detection). -/
  scriptTags : List String
  /-- `len(soup.find_all("table"))`. -/
  tableCount : Nat
  /-- `len(soup.find_all("div"))`. -/
  divCount : Nat
  /-- `len(html)`. -/
  htmlLen : Nat
  /-- `len(soup.get_text(" ", strip=True))`. -/
  textLen : Nat
  /-- Stripped text of the `<title>` tag, when the tag exists. -/
  title : Option String
  /-- `str(soup).lower()`. -/
  htmlLower : String
  /-- `soup.find_all(attrs={"itemtype": True})` is non-empty. -/
  hasItemtype : Bool
  /-- `soup.find("meta", attrs={"property": re.compile("^og:")})`. -/
  hasOgMeta : Bool
  /-- `soup.find("link", attrs={"rel": "canonical"})`. -/
  hasCanonical : Bool
  /-- `soup.find("meta", attrs={"name": "robots"})`. -/
  hasRobotsMeta : Bool
  /-- `soup.find_all(attrs={"itemscope": True})` is non-empty. -/
  hasItemscope : Bool
deriving DecidableEq

/-- The dated-script-library loop of `assess_site_quality` (lines
442-448): first matching script wins, `break` after either reason. -/
def legacyScriptReason : List String → Option String
  | [] => none
  | src :: rest =>
    if containsStr src "jquery-1." || containsStr src "jquery1." then
      some "usa jquery 1.x"
    else if containsStr src "bootstrap"
        && (containsStr src "3." || containsStr src "2.") then
      some "bootstrap datato"
    else legacyScriptReason rest

/-- The `reasons` list accumulated by `assess_site_quality`
(lines 427-473), in program order. -/
def problemReasons (f : SoupFacts) (url : String) : List String :=
  (if ¬ startsWithStr url "https://" then ["assenza https"] else [])
  ++ (if ¬ f.hasViewportMeta then ["non responsive (viewport mancante)"] else [])
  ++ (if ¬ f.hasDescriptionMeta then ["meta description mancante"] else [])
  ++ (if ¬ f.hasIconLink then ["favicon assente"] else [])
  ++ (match legacyScriptReason f.scriptSrcs with
      | some r => [r]
      | none => [])
  ++ (if 5 < f.tableCount ∧ f.divCount < 30 then ["layout a tabelle"] else [])
  ++ (if 400000 < f.htmlLen then ["pagina pesante >400KB"] else [])
  ++ (if f.textLen < 200 then ["contenuti scarsi"] else [])
  ++ (match f.title with
      | none => ["titolo mancante"]
      | some t =>
        if t = "" then ["titolo mancante"]
        else if t.length < 10 then ["titolo troppo corto"] else [])
  ++ (if containsStr f.htmlLower "wix.com" || containsStr f.htmlLower "weebly.com"
        || containsStr f.htmlLower "squarespace.com"
      then ["usa servizio gratuito"] else [])

/-- `has_modern_framework` (lines 476-479). -/
def hasModernFramework (f : SoupFacts) : Bool :=
  f.scriptTags.any fun s =>
    containsStr s "react" || containsStr s "vue" || containsStr s "angular"
      || containsStr s "next"

/-- `positive_indicators` (lines 487-493): the sum of the five positive
booleans, structured data and schema.org counted as one. -/
def positiveCount (f : SoupFacts) : Nat :=
  (if hasModernFramework f then 1 else 0)
  + (if f.hasItemtype || f.hasItemscope then 1 else 0)
  + (if f.hasOgMeta then 1 else 0)
  + (if f.hasCanonical then 1 else 0)
  + (if f.hasRobotsMeta then 1 else 0)

/-- Python `"; ".join(parts)`. -/
def joinSep (sep : String) : List String → String
  | [] => ""
  | [x] => x
  | x :: rest => x ++ sep ++ joinSep sep rest

/-- `assess_site_quality(html, url)` (lines 426-506): collect problem
reasons, count positive indicators, force `migliorabile = False` at
three or more positives, else flag on at least one problem; the note is
the first five reasons joined with `"; "`. -/
def assess_site_quality (f : SoupFacts) (url : String) : Bool × String :=
  let reasons := problemReasons f url
  let migliorabile :=
    if 3 ≤ positiveCount f then false else decide (1 ≤ reasons.length)
  (migliorabile, joinSep "; " (reasons.take 5))

/-- `SoupFacts` of the minimal document `<html><body></body></html>`:
no meta tags, no scripts, no tables or divs, 26 characters of markup,
no visible text, no title, no positive markers. -/
def minimalFacts : SoupFacts where
  hasViewportMeta := false
  hasDescriptionMeta := false
  hasIconLink := false
  scriptSrcs := []
  scriptTags := []
  tableCount := 0
  divCount := 0
  htmlLen := 26
  textLen := 0
  title := none
  htmlLower := "<html><body></body></html>"
  hasItemtype := false
  hasOgMeta := false
  hasCanonical := false
  hasRobotsMeta := false
  hasItemscope := false

/-! ## Site enricher (`enrich_with_site`, lines 519-554)

The network is abstracted: each candidate page's fetch outcome is an
`Option FetchedPage`, `none` for a failed fetch, and a `FetchedPage`
packages what the two pure analysers return on the fetched document:
`extract_emails_from_html(html)` and `assess_site_quality(html, url)`. -/

/-- Outcome of one successful candidate-page fetch: the extractor's
email list and the classifier's verdict and note for that page. -/
structure FetchedPage where
  emails : List String
  migliorabile : Bool
  note : String
deriving DecidableEq

/-- The `for url in candidates` loop of `enrich_with_site` (lines
534-552), with state `(emails, migliorabile, note)` and a counter of
fetch attempts.  A `none` page is a failed fetch (`continue`); emails
are extracted only while none were found; a `migliorabile` verdict is
kept once seen, otherwise only the note is refreshed; the loop breaks
once emails were found and the verdict is `migliorabile`. -/
def enrichLoop :
    List (Option FetchedPage) → List String → Bool → String → Nat →
    List String × Bool × String × Nat
  | [], emails, m, note, fetches => (emails, m, note, fetches)
  | p :: rest, emails, m, note, fetches =>
    match p with
    | none => enrichLoop rest emails m note (fetches + 1)
    | some pg =>
      let emails' := if emails.isEmpty then pg.emails else emails
      let mn :=
        if pg.migliorabile then (true, pg.note)
        else if ¬ m then (m, pg.note)
        else (m, note)
      if ¬ emails'.isEmpty ∧ mn.1 then (emails', mn.1, mn.2, fetches + 1)
      else enrichLoop rest emails' mn.1 mn.2 (fetches + 1)

/-- `enrich_with_site(client, website)` (lines 519-554) over the
abstract fetch outcomes of the candidate pages (site root plus
`/contatti`, `/contact`, `/about`, `/chi-siamo`): returns the selected
email, the verdict, the note, and the number of fetch attempts. -/
def enrich_with_site (website : String) (pages : List (Option FetchedPage)) :
    String × Bool × String × Nat :=
  if website = "" then ("", false, "", 0)
  else
    let website' := if hasScheme website then website else "https://" ++ website
    let r := enrichLoop pages [] false "" 0
    (choose_best_email r.1 website', r.2.1, r.2.2.1, r.2.2.2)

/-- Claim-side reading of `keeping the latest verdict`: the verdict of
the last successfully fetched page, `false` when no fetch succeeded. -/
def latestVerdict (pages : List (Option FetchedPage)) : Bool :=
  match (pages.filterMap id).getLast? with
  | some pg => pg.migliorabile
  | none => false

/-- The classifier verdict carried by one fetch outcome (`false` for a
failed fetch). -/
def optVerdict : Option FetchedPage → Bool
  | some pg => pg.migliorabile
  | none => false

/-! ## Business records and card enrichment -/

/-- `BusinessRecord` (scraper.py lines 55-70). -/
structure BusinessRecord where
  query : String
  business_keyword : String
  city : String
  name : String
  category : String
  address : String
  phone : String
  website : String
  email : String
  rating : String
  reviews : String
  migliorabile : Bool
  note : String
  timestamp : String
deriving DecidableEq

/-- `keyword_combo` (line 72): `business_keyword or ""`. -/
def keyword_combo (r : BusinessRecord) : String :=
  if r.business_keyword = "" then "" else r.business_keyword

/-- `to_row` (lines 75-84): the sheet row layout. -/
def to_row (r : BusinessRecord) : List String :=
  [r.email, r.phone, r.website, keyword_combo r, "", r.city, "no"]

/-- The card dictionary produced by `scrape_card_basic` (lines
598-609). -/
structure CandidateCard where
  query : String
  business_keyword : String
  city : String
  name : String
  category : String
  address : String
  phone : String
  website : String
  rating : String
  reviews : String
deriving DecidableEq

/-- `enrich_card_with_site` (lines 612-652) over abstract fetch
outcomes: empty website means no site analysis and no fetch; otherwise
the site enricher runs.  Returns the built record and the number of
network fetches performed. -/
def enrich_card_with_site (card : CandidateCard)
    (pages : List (Option FetchedPage)) (ts : String) :
    BusinessRecord × Nat :=
  let website := card.website
  let r := if website = "" then ("", false, "", 0)
           else enrich_with_site website pages
  ({ query := card.query
     business_keyword := card.business_keyword
     city := card.city
     name := card.name
     category := card.category
     address := card.address
     phone := card.phone
     website := website
     email := r.1
     rating := card.rating
     reviews := card.reviews
     migliorabile := r.2.1
     note := r.2.2.1
     timestamp := ts }, r.2.2.2)

/-! ## JSON checkpoint artifact (lines 86-123 and 714-732) -/

/-- JSON scalar values appearing in a serialized record. -/
inductive JVal where
  | s : String → JVal
  | b : Bool → JVal
deriving DecidableEq

/-- Reading a `JVal` where Python code consumes a string field. -/
def JVal.asS : JVal → String
  | .s v => v
  | .b _ => ""

/-- Reading a `JVal` where Python code consumes a boolean field. -/
def JVal.asB : JVal → Bool
  | .b v => v
  | .s _ => false

/-- `BusinessRecord.to_dict` (lines 86-103). -/
def to_dict (r : BusinessRecord) : List (String × JVal) :=
  [("query", .s r.query),
   ("business_keyword", .s r.business_keyword),
   ("city", .s r.city),
   ("name", .s r.name),
   ("category", .s r.category),
   ("address", .s r.address),
   ("phone", .s r.phone),
   ("website", .s r.website),
   ("email", .s r.email),
   ("rating", .s r.rating),
   ("reviews", .s r.reviews),
   ("migliorabile", .b r.migliorabile),
   ("note", .s r.note),
   ("timestamp", .s r.timestamp)]

/-- Python `data.get(key, default)` on a serialized dictionary. -/
def dget (d : List (String × JVal)) (k : String) (dflt : JVal) : JVal :=
  match d.lookup k with
  | some v => v
  | none => dflt

/-- `BusinessRecord.from_dict` (lines 105-123). -/
def from_dict (d : List (String × JVal)) : BusinessRecord where
  query := (dget d "query" (.s "")).asS
  business_keyword := (dget d "business_keyword" (.s "")).asS
  city := (dget d "city" (.s "")).asS
  name := (dget d "name" (.s "")).asS
  category := (dget d "category" (.s "")).asS
  address := (dget d "address" (.s "")).asS
  phone := (dget d "phone" (.s "")).asS
  website := (dget d "website" (.s "")).asS
  email := (dget d "email" (.s "")).asS
  rating := (dget d "rating" (.s "")).asS
  reviews := (dget d "reviews" (.s "")).asS
  migliorabile := (dget d "migliorabile" (.b false)).asB
  note := (dget d "note" (.s "")).asS
  timestamp := (dget d "timestamp" (.s "")).asS

/-- The JSON checkpoint document written by `save_records_to_json`
(lines 714-723). -/
structure Checkpoint where
  timestamp : String
  total_records : Nat
  records : List (List (String × JVal))
deriving DecidableEq

/-- `save_records_to_json` (lines 714-723), the file write abstracted
into the structured document. -/
def save_records_to_json (records : List BusinessRecord) (ts : String) :
    Checkpoint where
  timestamp := ts
  total_records := records.length
  records := records.map to_dict

/-- `load_records_from_json` (lines 726-732). -/
def load_records_from_json (c : Checkpoint) : List BusinessRecord :=
  c.records.map from_dict

/-! ## Dedup filter (`dedup_records`, lines 783-793) -/

/-- The loop of `dedup_records`, also returning the final `seen` set
(modelled as a list with membership) so that the key set accumulated by
a run can seed another run. -/
def dedupAux : List BusinessRecord → List String →
    List BusinessRecord × List String
  | [], seen => ([], seen)
  | r :: rs, seen =>
    let website := stripStr r.website
    if website ≠ "" then
      if seen.contains website then dedupAux rs seen
      else
        let p := dedupAux rs (website :: seen)
        (r :: p.1, p.2)
    else
      let p := dedupAux rs seen
      (r :: p.1, p.2)

/-- `dedup_records(records, existing_websites)` (lines 783-793). -/
def dedup_records (records : List BusinessRecord) (seed : List String) :
    List BusinessRecord :=
  (dedupAux records seed).1

/-- The dedup policy as the specification words it: walking the records
in order, a record is discarded exactly when its stripped website is
non-empty and occurs in the seed key set or among the stripped websites
of the records already traversed; every other record is kept. -/
def dedupHist : List BusinessRecord → List String → List String →
    List BusinessRecord
  | [], _, _ => []
  | r :: rs, prev, seed =>
    let w := stripStr r.website
    if w = "" then r :: dedupHist rs prev seed
    else if seed.contains w || prev.contains w then dedupHist rs (w :: prev) seed
    else r :: dedupHist rs (w :: prev) seed

/-- A record with an empty website, for saturation counterexamples. -/
def emptyWebsiteRecord : BusinessRecord where
  query := "q"
  business_keyword := ""
  city := ""
  name := ""
  category := ""
  address := ""
  phone := ""
  website := ""
  email := "a@b.co"
  rating := ""
  reviews := ""
  migliorabile := true
  note := ""
  timestamp := ""

/-! ## Batch writer (`write_rows`, lines 735-780)

The sheet append is abstracted into a fault pattern `fails`: attempt
`i` (0-based) raises iff `fails i`; a failing attempt appends nothing.
`random.uniform(0, 1)` is abstracted into `jitter`. -/

/-- Observable outcome of `write_rows`: number of append attempts,
number of times the batch was appended, the sleeps performed between
attempts, and whether the last error was re-raised. -/
structure WriteResult where
  attempts : Nat
  appended : Nat
  waits : List ℚ
  raised : Bool
deriving DecidableEq

/-- `base_delay * (2 ** attempt) + random.uniform(0, 1)` with
`base_delay = 2.0` (line 774). -/
def backoffDelay (jitter : Nat → ℚ) (attempt : Nat) : ℚ :=
  2 * 2 ^ attempt + jitter attempt

/-- `max_retries` (line 755). -/
def max_retries : Nat := 5

/-- The retry loop of `write_rows` (lines 758-780): `attempt` is the
0-based index, the fuel is the number of attempts still allowed.  On
success the batch is appended once and the loop returns; on failure
with attempts left the computed backoff is slept and the loop retries;
on the last failure the error is re-raised. -/
def writeGo (fails : Nat → Bool) (jitter : Nat → ℚ) :
    Nat → Nat → WriteResult
  | _, 0 => ⟨0, 0, [], true⟩
  | attempt, fuel + 1 =>
    if fails attempt then
      if fuel = 0 then ⟨1, 0, [], true⟩
      else
        let r := writeGo fails jitter (attempt + 1) fuel
        ⟨r.attempts + 1, r.appended, backoffDelay jitter attempt :: r.waits,
         r.raised⟩
    else ⟨1, 1, [], false⟩

/-- `write_rows(ws, records)` (lines 735-780): an empty row batch
returns without attempting anything, otherwise the retry loop runs
with `max_retries` attempts allowed. -/
def write_rows (records : List BusinessRecord) (fails : Nat → Bool)
    (jitter : Nat → ℚ) : WriteResult :=
  if (records.map to_row).isEmpty then ⟨0, 0, [], false⟩
  else writeGo fails jitter 0 max_retries

/-! ## Email extractor (`extract_emails_from_html`, lines 52, 374-378)

`EMAIL_REGEX = [A-Za-z0-9._%+-]+@[A-Za-z0-9.-]+\.[A-Za-z]{2,}` and
`re.findall` are modelled by a character-level scanner with the same
leftmost, non-overlapping, greedy-with-backtracking semantics (ASCII;
the `re.IGNORECASE` flag adds nothing since both cases are already in
every class). -/

/-- `[A-Za-z0-9._%+-]` (the local-part class). -/
def isLocalChar (c : Char) : Bool :=
  c.isAlpha || c.isDigit || c = '.' || c = '_' || c = '%' || c = '+' || c = '-'

/-- `[A-Za-z0-9.-]` (the domain class). -/
def isDomChar (c : Char) : Bool :=
  c.isAlpha || c.isDigit || c = '.' || c = '-'

/-- Backtracking step for `[A-Za-z0-9.-]+\.[A-Za-z]{2,}` inside the
maximal domain-class run `d`: the rightmost `.` in `d` that is followed
by at least two letters, as the engine finds by giving back characters
from the greedy `+`.  Returns `(pre, run, leftover)` with
`d = pre ++ '.' :: run ++ leftover`, `run` the maximal letter run after
the chosen dot. -/
def dotSplit : List Char → Option (List Char × List Char × List Char)
  | [] => none
  | c :: rest =>
    match dotSplit rest with
    | some (pre, run, lo) => some (c :: pre, run, lo)
    | none =>
      if c = '.' then
        let run := rest.takeWhile Char.isAlpha
        if 2 ≤ run.length then some ([], run, rest.dropWhile Char.isAlpha)
        else none
      else none

/-- One anchored match attempt of `EMAIL_REGEX` at the head of `s`:
greedy local-part run, literal `@`, greedy domain run with the
backtracking of `dotSplit` (which must leave a non-empty domain before
the dot).  Returns the matched text and the unconsumed rest. -/
def matchEmailAt (s : List Char) : Option (List Char × List Char) :=
  let loc := s.takeWhile isLocalChar
  if loc.isEmpty then none
  else
    match s.dropWhile isLocalChar with
    | c :: rest =>
      if c = '@' then
        let d := rest.takeWhile isDomChar
        let after := rest.dropWhile isDomChar
        match dotSplit d with
        | some (pre, run, lo) =>
          if pre.isEmpty then none
          else some (loc ++ '@' :: pre ++ '.' :: run, lo ++ after)
        | none => none
      else none
    | [] => none

/-- `re.findall` scanning: try a match at each position, left to right;
on success emit it and resume after its end.  Fuel-recursive; the fuel
is instantiated with the text length, which always suffices. -/
def scanGo (fuel : Nat) : List Char → List (List Char) :=
  match fuel with
  | 0 => fun _ => []
  | fuel + 1 => fun s =>
    match s with
    | [] => []
    | c :: rest =>
      match matchEmailAt (c :: rest) with
      | some (m, after) => m :: scanGo fuel after
      | none => scanGo fuel rest

/-- All raw `EMAIL_REGEX` matches of a text, in scan order. -/
def scanEmails (s : List Char) : List (List Char) :=
  scanGo s.length s

/-- One hexadecimal digit, as `urllib.parse.unquote` recognizes it
(code points 0-9, A-F, a-f). -/
def hexDigitVal (c : Char) : Option Nat :=
  let n := c.toNat
  if 48 ≤ n ∧ n ≤ 57 then some (n - 48)
  else if 65 ≤ n ∧ n ≤ 70 then some (n - 55)
  else if 97 ≤ n ∧ n ≤ 102 then some (n - 87)
  else none

/-- Modelled from `urllib.parse.unquote` restricted to the ASCII range
this scanner produces: each `%` followed by two hex digits becomes the
denoted code point, any other `%` stays literal (multi-byte UTF-8
percent sequences do not arise from ASCII regex matches). -/
def unquoteL : List Char → List Char
  | [] => []
  | '%' :: a :: b :: rest =>
    match hexDigitVal a, hexDigitVal b with
    | some va, some vb => Char.ofNat (16 * va + vb) :: unquoteL rest
    | _, _ => '%' :: unquoteL (a :: b :: rest)
  | c :: rest => c :: unquoteL rest

/-- Code-point lexicographic order on character lists (Python string
`<` on the ASCII data at hand). -/
def lexLt : List Char → List Char → Bool
  | [], [] => false
  | [], _ :: _ => true
  | _ :: _, [] => false
  | a :: as, b :: bs => a < b || (a = b && lexLt as bs)

/-- Ordered insertion for `sortLex`. -/
def insertLe (x : List Char) : List (List Char) → List (List Char)
  | [] => [x]
  | y :: ys => if lexLt x y then x :: y :: ys else y :: insertLe x ys

/-- Python `sorted` on the deduplicated match list. -/
def sortLex (l : List (List Char)) : List (List Char) :=
  l.foldr insertLe []

/-- `extract_emails_from_html(html)` (lines 374-378):
`sorted({unquote(m) for m in re.findall(EMAIL_REGEX, html)})`. -/
def extract_emails_from_html (html : String) : List String :=
  (sortLex ((scanEmails html.toList).map unquoteL).dedup).map String.mk

/-- Full-match predicate for `EMAIL_REGEX` written from the pattern
itself: a non-empty local run, `@`, then a non-empty domain run, a dot
and at least two letters reaching the end (`tailMatch`). -/
def dotAlphaEnd : List Char → Bool
  | [] => false
  | c :: run => c = '.' && run.all Char.isAlpha && decide (2 ≤ run.length)

/-- `r` matches `[A-Za-z0-9.-]+\.[A-Za-z]{2,}` exactly. -/
def tailMatch : List Char → Bool
  | [] => false
  | c :: rest => isDomChar c && (dotAlphaEnd rest || tailMatch rest)

/-- `m` matches the whole email pattern
`[A-Za-z0-9._%+-]+@[A-Za-z0-9.-]+\.[A-Za-z]{2,}`. -/
def isEmailMatch (m : List Char) : Bool :=
  !(m.takeWhile isLocalChar).isEmpty &&
    match m.dropWhile isLocalChar with
    | c :: rest => c = '@' && tailMatch rest
    | [] => false

/-- A record with a non-empty website, for concrete instances. -/
def siteRecord : BusinessRecord where
  query := "q"
  business_keyword := "kw"
  city := "Milano"
  name := "n"
  category := ""
  address := ""
  phone := ""
  website := "https://x.it"
  email := "a@x.it"
  rating := ""
  reviews := ""
  migliorabile := true
  note := "assenza https"
  timestamp := "t"

/-- A candidate card without a website, for concrete instances. -/
def noSiteCard : CandidateCard where
  query := "q"
  business_keyword := "kw"
  city := "Milano"
  name := "n"
  category := "c"
  address := "a"
  phone := "p"
  website := ""
  rating := "4.5"
  reviews := "10"

/-! ## Shared helper lemmas -/

theorem find_eq_head_filter {α : Type} (p : α → Bool) (l : List α) :
    l.find? p = (l.filter p).head? := by
  induction l with
  | nil => rfl
  | cons a l ih =>
    by_cases h : p a
    · rw [List.find?_cons_of_pos _ h, List.filter_cons_of_pos h,
        List.head?_cons]
    · rw [List.find?_cons_of_neg _ h, List.filter_cons_of_neg h, ih]

theorem toList_ne_nil (s : String) (h : s ≠ "") : s.toList ≠ [] := by
  intro hn
  apply h
  cases s with
  | mk data =>
    simp [String.toList] at hn
    simp [hn]

theorem containsStr_empty_hay (s : String) (h : s ≠ "") :
    containsStr "" s = false := by
  show isSubListOf s.toList [] = false
  cases hs : s.toList with
  | nil => exact absurd hs (toList_ne_nil s h)
  | cons c cs => simp [isSubListOf, hs]

theorem survive_domain_ne (e : String) (h : surviveFilter e = true) :
    domain_of e ≠ "" := by
  intro hd
  by_cases he : e = ""
  · simp [surviveFilter, he] at h
  · simp [surviveFilter, he, hd] at h

/-! ## C1 — site quality classifier -/

/-- C1: for every parsed document and URL, the classifier forces
`improvable = false` at three or more positive modern-site indicators,
otherwise flags the site exactly when at least one problem signal was
detected, and always returns the first five problem descriptions
joined with `"; "` as the note; the minimal document
`<html><body></body></html>` fetched over `http://` is flagged
improvable with the missing-HTTPS reason in the note. -/
theorem c1_site_quality_classifier :
    (∀ f url,
      (3 ≤ positiveCount f → (assess_site_quality f url).1 = false)
      ∧ (positiveCount f < 3 →
          ((assess_site_quality f url).1 = true ↔ problemReasons f url ≠ []))
      ∧ (assess_site_quality f url).2 =
          joinSep "; " ((problemReasons f url).take 5))
    ∧ (assess_site_quality minimalFacts "http://esempio.it").1 = true
    ∧ containsStr (assess_site_quality minimalFacts "http://esempio.it").2
        "assenza https" = true := by
  refine ⟨fun f url => ⟨fun h => ?_, fun h => ?_, rfl⟩, by decide, by decide⟩
  · simp [assess_site_quality, h]
  · have h3 : ¬ 3 ≤ positiveCount f := by omega
    simp [assess_site_quality, h3, Nat.one_le_iff_ne_zero,
      List.length_eq_zero]

/-- Witness for C1 at the minimal document. -/
theorem c1_site_quality_classifier_witness :
    (assess_site_quality minimalFacts "http://esempio.it").1 = true ↔
      problemReasons minimalFacts "http://esempio.it" ≠ [] :=
  (c1_site_quality_classifier.1 minimalFacts "http://esempio.it").2.1
    (by decide)

/-! ## C3 / C10 — email selector -/

theorem choose_eq_spec (c : List String) (w : String) :
    choose_best_email c w = chooseBestEmailSpec c w := by
  by_cases hc : c.isEmpty
  · rw [List.isEmpty_iff] at hc
    subst hc
    rfl
  · have hc' : c.isEmpty = false := by simpa using hc
    have hpq : (c.filter surviveFilter).filter
        (fun e => (if w = "" then "" else lowerStr (netloc w)) ≠ ""
          && containsStr (if w = "" then "" else lowerStr (netloc w))
            (domain_of e))
        = (c.filter surviveFilter).filter
          (fun e => containsStr (if w = "" then "" else lowerStr (netloc w))
            (domain_of e)) := by
      apply List.filter_congr
      intro e he
      by_cases hsite : (if w = "" then "" else lowerStr (netloc w)) = ""
      · simp [hsite,
          containsStr_empty_hay _ (survive_domain_ne e (List.of_mem_filter he))]
      · simp [hsite]
    simp only [choose_best_email, chooseBestEmailSpec, hc',
      Bool.false_eq_true, if_false]
    rw [hpq, find_eq_head_filter, find_eq_head_filter]
    by_cases hf : (c.filter surviveFilter).isEmpty
    · rw [List.isEmpty_iff] at hf
      rw [hf]
      simp
    · rw [if_neg (by simpa using hf)]
      cases h1 : (c.filter surviveFilter).filter
          (fun e => containsStr (if w = "" then "" else lowerStr (netloc w))
            (domain_of e)) with
      | cons e t => simp
      | nil =>
        simp only [List.head?_nil]
        cases h2 : (c.filter surviveFilter).filter
            (fun e => commonProviders.contains (domain_of e)) with
        | cons e t => simp
        | nil =>
          simp only [List.head?_nil]
          cases h3 : c.filter surviveFilter with
          | nil => simp [h3] at hf
          | cons e t => simp

/-- C3: the Email Selector equals, for every candidate list and
website, the policy of the specification — filter out bad candidates,
then first survivor on the website's own host, else first survivor on
a common public provider, else the first survivor, else the empty
string (deterministic, both sides being functions of the inputs) — and
on candidates `info@example.com`, `x@trackerdomain.com` (in extractor
sort order) with website `https://example.com` it returns
`info@example.com`. -/
theorem c3_email_selector :
    (∀ candidates website,
      choose_best_email candidates website
        = chooseBestEmailSpec candidates website)
    ∧ choose_best_email ["info@example.com", "x@trackerdomain.com"]
        "https://example.com" = "info@example.com" :=
  ⟨choose_eq_spec, by decide⟩

/-- C10: the selector never synthesizes an address — its value is the
empty string or one of the input candidates. -/
theorem c10_selector_no_synthesis (candidates : List String)
    (website : String) :
    choose_best_email candidates website = ""
    ∨ choose_best_email candidates website ∈ candidates := by
  unfold choose_best_email
  by_cases hc : candidates.isEmpty
  · simp [hc]
  · rw [if_neg (by simpa using hc)]
    by_cases hf : (candidates.filter surviveFilter).isEmpty
    · simp [hf]
    · rw [if_neg hf]
      cases h1 : (candidates.filter surviveFilter).filter
          (fun e => (if website = "" then "" else lowerStr (netloc website)) ≠ ""
            && containsStr (if website = "" then "" else lowerStr (netloc website))
              (domain_of e)) with
      | cons e t =>
        right
        exact List.mem_of_mem_filter (List.mem_of_mem_filter
          (h1 ▸ List.mem_cons_self e t))
      | nil =>
        cases h2 : (candidates.filter surviveFilter).filter
            (fun e => commonProviders.contains (domain_of e)) with
        | cons e t =>
          right
          exact List.mem_of_mem_filter (List.mem_of_mem_filter
            (h2 ▸ List.mem_cons_self e t))
        | nil =>
          cases h3 : candidates.filter surviveFilter with
          | nil => simp [h3] at hf
          | cons e t =>
            right
            exact List.mem_of_mem_filter (h3 ▸ List.mem_cons_self e t)

/-! ## C7 — checkpoint round trip -/

/-- C7: serializing any record list to the checkpoint document and
deserializing it reconstructs the same list, every field included, and
in particular the same number of records. -/
theorem c7_checkpoint_roundtrip (records : List BusinessRecord)
    (ts : String) :
    load_records_from_json (save_records_to_json records ts) = records
    ∧ (load_records_from_json (save_records_to_json records ts)).length
        = records.length := by
  have h : load_records_from_json (save_records_to_json records ts)
      = records := by
    unfold load_records_from_json save_records_to_json
    induction records with
    | nil => rfl
    | cons r rs ih =>
      simp only [List.map_cons, List.cons.injEq]
      exact ⟨rfl, by simpa using ih⟩
  exact ⟨h, by rw [h]⟩

/-! ## C8 — empty website invariant -/

/-- C8: an enriched record whose website field is empty has empty
email, `improvable = false`, empty notes, and its enrichment performed
no network fetch. -/
theorem c8_empty_website (card : CandidateCard)
    (pages : List (Option FetchedPage)) (ts : String)
    (h : (enrich_card_with_site card pages ts).1.website = "") :
    (enrich_card_with_site card pages ts).1.email = ""
    ∧ (enrich_card_with_site card pages ts).1.migliorabile = false
    ∧ (enrich_card_with_site card pages ts).1.note = ""
    ∧ (enrich_card_with_site card pages ts).2 = 0 := by
  have hw : card.website = "" := h
  simp [enrich_card_with_site, hw]

/-- Witness for C8 on a concrete card without a website. -/
theorem c8_empty_website_witness :
    (enrich_card_with_site noSiteCard [none] "t").1.email = ""
    ∧ (enrich_card_with_site noSiteCard [none] "t").1.migliorabile = false
    ∧ (enrich_card_with_site noSiteCard [none] "t").1.note = ""
    ∧ (enrich_card_with_site noSiteCard [none] "t").2 = 0 :=
  c8_empty_website noSiteCard [none] "t" (by decide)

/-! ## C4 / C5 — dedup filter -/

theorem dedupAux_eq_hist :
    ∀ (rs : List BusinessRecord) (prev seed seen : List String),
    (∀ w : String, w ≠ "" →
      seen.contains w = (seed.contains w || prev.contains w)) →
    (dedupAux rs seen).1 = dedupHist rs prev seed := by
  intro rs
  induction rs with
  | nil => intro prev seed seen _; rfl
  | cons r rs ih =>
    intro prev seed seen h
    simp only [dedupAux, dedupHist]
    by_cases hw : stripStr r.website = ""
    · rw [if_neg (by simp [hw]), if_pos hw]
      exact congrArg (r :: ·) (ih prev seed seen h)
    · rw [if_pos hw, if_neg hw]
      by_cases hs : seen.contains (stripStr r.website) = true
      · rw [if_pos hs, if_pos (by rw [← h _ hw]; exact hs)]
        apply ih
        intro w' hw'
        simp only [List.contains_cons, h w' hw']
        by_cases hww : w' = stripStr r.website
        · have hsp : (seed.contains w' || prev.contains w') = true := by
            rw [← h _ hw', hww]; exact hs
          rw [show (w' == stripStr r.website) = true from by simpa using hww,
            hsp]
          simp
        · rw [show (w' == stripStr r.website) = false from by simpa using hww]
          cases seed.contains w' <;> cases prev.contains w' <;> rfl
      · rw [if_neg hs, if_neg (by rw [← h _ hw]; exact hs)]
        refine congrArg (r :: ·) (ih _ _ _ ?_)
        intro w' hw'
        simp only [List.contains_cons, h w' hw']
        cases w' == stripStr r.website <;>
          cases seed.contains w' <;> cases prev.contains w' <;> rfl

theorem dedup_sublist (rs : List BusinessRecord) (seen : List String) :
    ((dedupAux rs seen).1).Sublist rs := by
  induction rs generalizing seen with
  | nil => exact List.nil_sublist _
  | cons r rs ih =>
    simp only [dedupAux]
    by_cases hw : stripStr r.website = ""
    · rw [if_neg (by simp [hw])]
      exact List.Sublist.cons₂ r (ih seen)
    · rw [if_pos hw]
      by_cases hs : seen.contains (stripStr r.website) = true
      · rw [if_pos hs]
        exact List.Sublist.cons r (ih seen)
      · rw [if_neg hs]
        exact List.Sublist.cons₂ r (ih (stripStr r.website :: seen))

/-- C4: the dedup filter is an order-preserving sublist selection that
discards a record exactly when its stripped website is non-empty and
occurs in the seed key set or among the stripped websites of earlier
records of the batch (kept or discarded), and keeps every record with
an empty website. -/
theorem c4_dedup_filter (records : List BusinessRecord)
    (seed : List String) :
    dedup_records records seed = dedupHist records [] seed
    ∧ (dedup_records records seed).Sublist records :=
  ⟨dedupAux_eq_hist records [] seed seed (fun w _ => by simp),
   dedup_sublist records seed⟩

theorem dedupAux_seen_mono (rs : List BusinessRecord) :
    ∀ (seen : List String) (w : String), seen.contains w = true →
    (dedupAux rs seen).2.contains w = true := by
  induction rs with
  | nil => intro seen w h; exact h
  | cons r rs ih =>
    intro seen w h
    simp only [dedupAux]
    by_cases hw : stripStr r.website = ""
    · rw [if_neg (by simp [hw])]
      exact ih seen w h
    · rw [if_pos hw]
      by_cases hs : seen.contains (stripStr r.website) = true
      · rw [if_pos hs]; exact ih seen w h
      · rw [if_neg hs]
        exact ih _ w (by rw [List.contains_cons, h]; simp)

theorem dedupAux_seen_complete (rs : List BusinessRecord) :
    ∀ (seen : List String) (r : BusinessRecord), r ∈ rs →
    stripStr r.website ≠ "" →
    (dedupAux rs seen).2.contains (stripStr r.website) = true := by
  induction rs with
  | nil => intro seen r hr; cases hr
  | cons a rs ih =>
    intro seen r hr hw
    simp only [dedupAux]
    by_cases ha : stripStr a.website = ""
    · rw [if_neg (by simp [ha])]
      rcases List.mem_cons.mp hr with rfl | hmem
      · exact absurd ha hw
      · exact ih seen r hmem hw
    · rw [if_pos ha]
      by_cases hs : seen.contains (stripStr a.website) = true
      · rw [if_pos hs]
        rcases List.mem_cons.mp hr with rfl | hmem
        · exact dedupAux_seen_mono rs seen _ hs
        · exact ih seen r hmem hw
      · rw [if_neg hs]
        rcases List.mem_cons.mp hr with rfl | hmem
        · exact dedupAux_seen_mono rs _ _ (by simp [List.contains_cons])
        · exact ih _ r hmem hw

theorem dedupAux_nil_of_seen (rs : List BusinessRecord) (seen : List String)
    (h : ∀ r ∈ rs, stripStr r.website ≠ ""
      ∧ seen.contains (stripStr r.website) = true) :
    (dedupAux rs seen).1 = [] := by
  induction rs with
  | nil => rfl
  | cons r rs ih =>
    obtain ⟨hw, hs⟩ := h r (List.mem_cons_self r rs)
    simp only [dedupAux]
    rw [if_pos hw, if_pos hs]
    exact ih fun a ha => h a (List.mem_cons_of_mem r ha)

/-- C5 counterexample: on a batch containing a record with an empty
website, the second run over the saturated key set keeps that record
again, so its output is not empty. -/
theorem c5_dedup_counterexample :
    dedup_records [emptyWebsiteRecord]
      (dedupAux [emptyWebsiteRecord] []).2 ≠ [] := by decide

/-- C5 (amended): for a record list in which every stripped website is
non-empty, rerunning the dedup filter over the key set accumulated by
a first run on the same list yields an empty output. -/
theorem c5_dedup_idempotent (records : List BusinessRecord)
    (seed : List String)
    (h : ∀ r ∈ records, stripStr r.website ≠ "") :
    dedup_records records (dedupAux records seed).2 = [] := by
  apply dedupAux_nil_of_seen
  intro r hr
  exact ⟨h r hr, dedupAux_seen_complete records seed r hr (h r hr)⟩

/-- Witness for the amended C5 on a one-record batch. -/
theorem c5_dedup_idempotent_witness :
    dedup_records [siteRecord] (dedupAux [siteRecord] []).2 = [] :=
  c5_dedup_idempotent [siteRecord] [] (by decide)

/-! ## C2 — site enricher -/

theorem enrichLoop_fst_migliorabile (pages : List (Option FetchedPage)) :
    ∀ (emails : List String) (m : Bool) (note : String) (fetches : Nat),
    (enrichLoop pages emails m note fetches).2.1
      = (m || pages.any optVerdict) := by
  induction pages with
  | nil => intro emails m note fetches; simp [enrichLoop]
  | cons p rest ih =>
    intro emails m note fetches
    cases p with
    | none =>
      simp only [enrichLoop, List.any_cons, optVerdict]
      rw [ih]
      simp
    | some pg =>
      simp only [enrichLoop, List.any_cons, optVerdict]
      generalize hE : (if emails.isEmpty = true then pg.emails else emails)
        = emails'
      have hmn : (if pg.migliorabile = true then (true, pg.note)
          else if ¬m = true then (m, pg.note) else (m, note)).1
          = (m || pg.migliorabile) := by
        by_cases hm : pg.migliorabile = true
        · simp [hm]
        · rw [show pg.migliorabile = false from by simpa using hm]
          by_cases h : m = true <;> simp [h, hm]
      generalize hM : (if pg.migliorabile = true then (true, pg.note)
          else if ¬m = true then (m, pg.note) else (m, note)) = mn at hmn
      by_cases hbr : ¬ emails'.isEmpty = true ∧ mn.1 = true
      · simp only [if_pos hbr]
        have h1 : (m || pg.migliorabile) = true := by rw [← hmn]; exact hbr.2
        show mn.1 = _
        rw [hmn]
        cases m with
        | true => simp
        | false =>
          simp only [Bool.false_or] at h1 ⊢
          rw [h1]
          simp
      · simp only [if_neg hbr]
        rw [ih, hmn]
        cases m <;> cases hpm : pg.migliorabile <;> simp

theorem enrichLoop_extend (pages : List (Option FetchedPage)) :
    ∀ (extra : List (Option FetchedPage)) (emails : List String) (m : Bool)
      (note : String) (fetches : Nat),
    (emails.isEmpty = true ∨ m = false) →
    (enrichLoop pages emails m note fetches).1 ≠ [] →
    (enrichLoop pages emails m note fetches).2.1 = true →
    enrichLoop (pages ++ extra) emails m note fetches
      = enrichLoop pages emails m note fetches := by
  induction pages with
  | nil =>
    intro extra emails m note fetches hstart h1 h2
    simp only [enrichLoop] at h1 h2
    rcases hstart with he | hm
    · exact absurd (List.isEmpty_iff.mp he) h1
    · rw [hm] at h2; cases h2
  | cons p rest ih =>
    intro extra emails m note fetches hstart h1 h2
    cases p with
    | none =>
      simp only [List.cons_append, enrichLoop] at h1 h2 ⊢
      exact ih extra emails m note (fetches + 1) hstart h1 h2
    | some pg =>
      rw [List.cons_append]
      simp only [enrichLoop] at h1 h2 ⊢
      generalize hE : (if emails.isEmpty = true then pg.emails else emails)
        = emails' at h1 h2 ⊢
      generalize hM : (if pg.migliorabile = true then (true, pg.note)
          else if ¬m = true then (m, pg.note) else (m, note))
        = mn at h1 h2 ⊢
      by_cases hbr : ¬ emails'.isEmpty = true ∧ mn.1 = true
      · simp only [if_pos hbr]
      · simp only [if_neg hbr] at h1 h2 ⊢
        refine ih extra emails' mn.1 mn.2 (fetches + 1) ?_ h1 h2
        by_cases hA : emails'.isEmpty = true
        · exact Or.inl hA
        · refine Or.inr ?_
          have hb : ¬ mn.1 = true := fun hb => hbr ⟨hA, hb⟩
          simpa using hb

/-- C2 counterexample: two successful fetches, the first classified
improvable, the second not; the enricher reports `improvable = true`
while the latest verdict is `false`, so the final value is not the
latest verdict. -/
theorem c2_enricher_counterexample :
    (enrich_with_site "https://x.it"
        [some ⟨[], true, "a"⟩, some ⟨[], false, "b"⟩]).2.1 = true
    ∧ latestVerdict [some ⟨[], true, "a"⟩, some ⟨[], false, "b"⟩] = false :=
  ⟨by decide, by decide⟩

/-- C2 (amended): for a non-empty website, the enricher's final
`improvable` value is true exactly when some successfully fetched page
classified improvable (the verdict is kept once seen, it is not the
latest verdict); and once the fetch loop has found emails with a
positive verdict, appending further candidate pages changes nothing —
no further page is fetched. -/
theorem c2_enricher_sticky_shortcircuit :
    (∀ website pages, website ≠ "" →
      (enrich_with_site website pages).2.1 = pages.any optVerdict)
    ∧ (∀ website pages extra,
        (enrichLoop pages [] false "" 0).1 ≠ [] →
        (enrichLoop pages [] false "" 0).2.1 = true →
        enrich_with_site website (pages ++ extra)
          = enrich_with_site website pages) := by
  constructor
  · intro website pages hw
    simp only [enrich_with_site, if_neg hw]
    rw [enrichLoop_fst_migliorabile]
    simp
  · intro website pages extra h1 h2
    by_cases hw : website = ""
    · simp [enrich_with_site, hw]
    · simp only [enrich_with_site, if_neg hw]
      rw [enrichLoop_extend pages extra [] false "" 0 (Or.inl rfl) h1 h2]

/-- Witness for the amended C2: one page with an email and a positive
verdict; the verdict equals the sticky disjunction and an appended
extra page is never fetched. -/
theorem c2_enricher_sticky_shortcircuit_witness :
    (enrich_with_site "https://x.it" [some ⟨["a@b.it"], true, "n"⟩]).2.1
      = ([some ⟨["a@b.it"], true, "n"⟩] :
          List (Option FetchedPage)).any optVerdict
    ∧ enrich_with_site "https://x.it"
        ([some ⟨["a@b.it"], true, "n"⟩] ++ [none])
      = enrich_with_site "https://x.it" [some ⟨["a@b.it"], true, "n"⟩] :=
  ⟨c2_enricher_sticky_shortcircuit.1 "https://x.it" _ (by decide),
   c2_enricher_sticky_shortcircuit.2 "https://x.it" _ [none]
     (by decide) (by decide)⟩

/-! ## C6 — batch writer -/

theorem writeGo_first_success (fails : Nat → Bool) (jitter : Nat → ℚ) :
    ∀ (m i fuel : Nat), m < fuel →
    (∀ j, j < m → fails (i + j) = true) → fails (i + m) = false →
    writeGo fails jitter i fuel =
      ⟨m + 1, 1, (List.range m).map (fun j => backoffDelay jitter (i + j)),
       false⟩ := by
  intro m
  induction m with
  | zero =>
    intro i fuel hlt hfail hsucc
    cases fuel with
    | zero => omega
    | succ f =>
      simp only [writeGo]
      rw [show fails i = false from by simpa using hsucc]
      simp
  | succ m ih =>
    intro i fuel hlt hfail hsucc
    cases fuel with
    | zero => omega
    | succ f =>
      have hfi : fails i = true := by simpa using hfail 0 (by omega)
      have hf0 : ¬ f = 0 := by omega
      simp only [writeGo, hfi, if_true, hf0, if_false]
      rw [ih (i + 1) f (by omega)
        (fun j hj => by
          rw [show i + 1 + j = i + (j + 1) by omega]
          exact hfail (j + 1) (by omega))
        (by rw [show i + 1 + m = i + (m + 1) by omega]; exact hsucc)]
      rw [List.range_succ_eq_map, List.map_cons, List.map_map]
      rw [List.map_congr_left fun j _ => by
        show backoffDelay jitter (i + 1 + j) = backoffDelay jitter (i + (j + 1))
        rw [show i + 1 + j = i + (j + 1) by omega]]
      rfl

theorem writeGo_all_fail (fails : Nat → Bool) (jitter : Nat → ℚ) :
    ∀ (fuel i : Nat), 1 ≤ fuel → (∀ j, j < fuel → fails (i + j) = true) →
    writeGo fails jitter i fuel =
      ⟨fuel, 0,
       (List.range (fuel - 1)).map (fun j => backoffDelay jitter (i + j)),
       true⟩ := by
  intro fuel
  induction fuel with
  | zero => intro i h; omega
  | succ f ih =>
    intro i _ hfail
    have hfi : fails i = true := by simpa using hfail 0 (by omega)
    rcases Nat.eq_zero_or_pos f with h0 | hpos
    · subst h0
      simp [writeGo, hfi]
    · have hf0 : ¬ f = 0 := by omega
      simp only [writeGo, hfi, if_true, hf0, if_false]
      rw [ih (i + 1) hpos
        (fun j hj => by
          rw [show i + 1 + j = i + (j + 1) by omega]
          exact hfail (j + 1) (by omega))]
      obtain ⟨g, rfl⟩ : ∃ g, f = g + 1 := ⟨f - 1, by omega⟩
      simp only [Nat.add_sub_cancel]
      rw [List.range_succ_eq_map, List.map_cons, List.map_map]
      rw [List.map_congr_left fun j _ => by
        show backoffDelay jitter (i + 1 + j) = backoffDelay jitter (i + (j + 1))
        rw [show i + 1 + j = i + (j + 1) by omega]]
      rfl

/-- C6: for a non-empty batch and a fault pattern whose first success
is attempt `k` (1-based, `k ≤ 5`), the writer makes exactly `k`
attempts, appends the rows exactly once, raises nothing, and sleeps
`2 * 2 ^ i + jitter i` after each failed attempt `i`; when all five
attempts fail it makes five attempts, appends nothing, and re-raises
the last error. -/
theorem c6_batch_writer (records : List BusinessRecord)
    (fails : Nat → Bool) (jitter : Nat → ℚ) (hne : records ≠ []) :
    (∀ k, 1 ≤ k → k ≤ 5 →
      (∀ j, j < k - 1 → fails j = true) → fails (k - 1) = false →
      write_rows records fails jitter =
        ⟨k, 1, (List.range (k - 1)).map (backoffDelay jitter), false⟩)
    ∧ ((∀ j, j < 5 → fails j = true) →
      write_rows records fails jitter =
        ⟨5, 0, (List.range 4).map (backoffDelay jitter), true⟩) := by
  have hrows : (records.map to_row).isEmpty = false := by
    cases records with
    | nil => exact absurd rfl hne
    | cons r rs => rfl
  constructor
  · intro k hk1 hk5 hfail hsucc
    unfold write_rows
    rw [hrows]
    simp only [Bool.false_eq_true, if_false]
    rw [writeGo_first_success fails jitter (k - 1) 0 max_retries
      (by unfold max_retries; omega)
      (fun j hj => by simpa using hfail j hj) (by simpa using hsucc)]
    rw [show k - 1 + 1 = k by omega]
    rw [List.map_congr_left fun j _ => by
      show backoffDelay jitter (0 + j) = backoffDelay jitter j
      rw [Nat.zero_add]]
  · intro hfail
    unfold write_rows
    rw [hrows]
    simp only [Bool.false_eq_true, if_false]
    rw [writeGo_all_fail fails jitter max_retries 0
      (by unfold max_retries; omega)
      (fun j hj => by
        rw [Nat.zero_add]
        exact hfail j (by simpa [max_retries] using hj))]
    rw [List.map_congr_left fun j _ => by
      show backoffDelay jitter (0 + j) = backoffDelay jitter j
      rw [Nat.zero_add]]
    rfl

/-- Witness for C6: two failures then success on a one-record batch:
three attempts, one append, no raise. -/
theorem c6_batch_writer_witness :
    write_rows [siteRecord] (fun j => decide (j < 2)) (fun _ => 0) =
      ⟨3, 1, (List.range 2).map (backoffDelay (fun _ => 0)), false⟩ :=
  (c6_batch_writer [siteRecord] (fun j => decide (j < 2)) (fun _ => 0)
    (by decide)).1 3 (by omega) (by omega)
    (fun j hj => by simp; omega) (by decide)

/-! ## C9 — email extractor -/

theorem takeWhile_eq_nil_of_head (p : Char → Bool) (v : List Char)
    (hv : ∀ x, v.head? = some x → p x = false) : v.takeWhile p = [] := by
  cases v with
  | nil => rfl
  | cons x xs =>
    rw [List.takeWhile_cons, if_neg (by rw [hv x rfl]; simp)]

theorem dropWhile_eq_self_of_head (p : Char → Bool) (v : List Char)
    (hv : ∀ x, v.head? = some x → p x = false) : v.dropWhile p = v := by
  cases v with
  | nil => rfl
  | cons x xs =>
    rw [List.dropWhile_cons, if_neg (by rw [hv x rfl]; simp)]

theorem dotSplit_spec :
    ∀ (d pre run lo : List Char), dotSplit d = some (pre, run, lo) →
    d = pre ++ '.' :: (run ++ lo) ∧ run.all Char.isAlpha = true
      ∧ 2 ≤ run.length := by
  intro d
  induction d with
  | nil => intro pre run lo h; cases h
  | cons c rest ih =>
    intro pre run lo h
    simp only [dotSplit] at h
    cases hds : dotSplit rest with
    | some p =>
      obtain ⟨pre', run', lo'⟩ := p
      rw [hds] at h
      simp only [Option.some.injEq, Prod.mk.injEq] at h
      obtain ⟨h1, h2, h3⟩ := h
      obtain ⟨hd, ha, hl⟩ := ih pre' run' lo' hds
      subst h1 h2 h3
      refine ⟨?_, ha, hl⟩
      rw [List.cons_append, ← hd]
    | none =>
      rw [hds] at h
      by_cases hc : c = '.'
      · rw [if_pos hc] at h
        by_cases hlen : 2 ≤ (rest.takeWhile Char.isAlpha).length
        · rw [if_pos hlen] at h
          simp only [Option.some.injEq, Prod.mk.injEq] at h
          obtain ⟨h1, h2, h3⟩ := h
          subst h1 h2 h3
          refine ⟨?_, ?_, hlen⟩
          · rw [List.nil_append, hc, List.takeWhile_append_dropWhile]
          · exact List.all_eq_true.mpr fun x hx =>
              List.mem_takeWhile_imp hx
        · rw [if_neg hlen] at h; cases h
      · rw [if_neg hc] at h; cases h

theorem dom_imp_local (c : Char) (h : isDomChar c = true) :
    isLocalChar c = true := by
  simp only [isDomChar, Bool.or_eq_true] at h
  simp only [isLocalChar, Bool.or_eq_true]
  tauto

theorem alpha_imp_local (c : Char) (h : c.isAlpha = true) :
    isLocalChar c = true := by
  simp [isLocalChar, h]

theorem tailMatch_intro :
    ∀ (pre run : List Char), pre ≠ [] → (∀ x ∈ pre, isDomChar x = true) →
    run.all Char.isAlpha = true → 2 ≤ run.length →
    tailMatch (pre ++ '.' :: run) = true := by
  intro pre
  induction pre with
  | nil => intro run h; exact absurd rfl h
  | cons c pre ih =>
    intro run _ hdom halpha hlen
    show (isDomChar c
      && (dotAlphaEnd (pre ++ '.' :: run) || tailMatch (pre ++ '.' :: run)))
      = true
    rw [hdom c (List.mem_cons_self c pre)]
    cases pre with
    | nil =>
      rw [List.nil_append,
        show dotAlphaEnd ('.' :: run) = true from by
          simp [dotAlphaEnd, halpha, hlen]]
      rfl
    | cons d pre' =>
      rw [ih run (by simp)
        (fun x hx => hdom x (List.mem_cons_of_mem c hx)) halpha hlen]
      simp

theorem takeWhile_append_of_all (p : Char → Bool) :
    ∀ (a b : List Char), (∀ x ∈ a, p x = true) →
    (∀ x, b.head? = some x → p x = false) →
    (a ++ b).takeWhile p = a ∧ (a ++ b).dropWhile p = b := by
  intro a
  induction a with
  | nil =>
    intro b _ hb
    exact ⟨takeWhile_eq_nil_of_head p b hb, dropWhile_eq_self_of_head p b hb⟩
  | cons x xs ih =>
    intro b ha hb
    have hx : p x = true := ha x (List.mem_cons_self x xs)
    obtain ⟨h1, h2⟩ := ih b (fun y hy => ha y (List.mem_cons_of_mem x hy)) hb
    constructor
    · rw [List.cons_append, List.takeWhile_cons, if_pos hx, h1]
    · rw [List.cons_append, List.dropWhile_cons, if_pos hx, h2]

theorem matchEmailAt_spec :
    ∀ (s m after : List Char), matchEmailAt s = some (m, after) →
    s = m ++ after ∧ isEmailMatch m = true ∧ after.length < s.length
    ∧ (∀ c ∈ m, isLocalChar c = true ∨ c = '@') := by
  intro s m after h
  unfold matchEmailAt at h
  by_cases hloc : (s.takeWhile isLocalChar).isEmpty
  · rw [if_pos hloc] at h; cases h
  · rw [if_neg hloc] at h
    cases hdrop : s.dropWhile isLocalChar with
    | nil => rw [hdrop] at h; cases h
    | cons c rest =>
      rw [hdrop] at h
      replace h : (if c = '@' then
          match dotSplit (rest.takeWhile isDomChar) with
          | some (pre, run, lo) =>
            if pre.isEmpty then none
            else some (s.takeWhile isLocalChar ++ '@' :: pre ++ '.' :: run,
              lo ++ rest.dropWhile isDomChar)
          | none => none
        else none) = some (m, after) := h
      by_cases hc : c = '@'
      · rw [if_pos hc] at h
        cases hds : dotSplit (rest.takeWhile isDomChar) with
        | none => rw [hds] at h; cases h
        | some p =>
          obtain ⟨pre, run, lo⟩ := p
          rw [hds] at h
          replace h : (if pre.isEmpty then none
              else some (s.takeWhile isLocalChar ++ '@' :: pre ++ '.' :: run,
                lo ++ rest.dropWhile isDomChar)) = some (m, after) := h
          by_cases hpre : pre.isEmpty
          · rw [if_pos hpre] at h; cases h
          · rw [if_neg hpre] at h
            simp only [Option.some.injEq, Prod.mk.injEq] at h
            obtain ⟨hm, hafter⟩ := h
            obtain ⟨hd, halpha, hlen⟩ :=
              dotSplit_spec (rest.takeWhile isDomChar) pre run lo hds
            have hsplit : s = s.takeWhile isLocalChar ++ c :: rest := by
              rw [← hdrop, List.takeWhile_append_dropWhile]
            have hrest : rest
                = (pre ++ '.' :: (run ++ lo)) ++ rest.dropWhile isDomChar := by
              rw [← hd, List.takeWhile_append_dropWhile]
            have hlocne : s.takeWhile isLocalChar ≠ [] := by
              simpa [List.isEmpty_iff] using hloc
            have hpre' : pre ≠ [] := by
              simpa [List.isEmpty_iff] using hpre
            have hdomall : ∀ x ∈ pre, isDomChar x = true := by
              intro x hx
              have hx' : x ∈ rest.takeWhile isDomChar := by
                rw [hd]
                exact List.mem_append_left _ hx
              exact List.mem_takeWhile_imp hx'
            have hall : ∀ x ∈ s.takeWhile isLocalChar,
                isLocalChar x = true := fun x hx => List.mem_takeWhile_imp hx
            have hseq : s = m ++ after := by
              rw [← hm, ← hafter]
              conv => lhs; rw [hsplit, hc]
              conv => lhs; rw [hrest]
              simp [List.append_assoc, List.cons_append]
            have hm' : m = s.takeWhile isLocalChar
                ++ '@' :: (pre ++ '.' :: run) := by
              rw [← hm]
              simp [List.append_assoc, List.cons_append]
            refine ⟨hseq, ?_, ?_, ?_⟩
            · unfold isEmailMatch
              have hhead : ∀ x, ('@' :: (pre ++ '.' :: run)).head? = some x →
                  isLocalChar x = false := by
                intro x hx
                simp only [List.head?_cons, Option.some.injEq] at hx
                subst hx
                decide
              obtain ⟨htk, hdw⟩ :=
                takeWhile_append_of_all isLocalChar _ _ hall hhead
              rw [hm', htk, hdw]
              simp only [Bool.and_eq_true, Bool.not_eq_true']
              exact ⟨by simpa using hloc, by decide,
                tailMatch_intro pre run hpre' hdomall halpha hlen⟩
            · rw [hseq, List.length_append]
              have h1 : 0 < (s.takeWhile isLocalChar).length :=
                List.length_pos.mpr hlocne
              have h2 : 0 < m.length := by
                rw [hm', List.length_append]
                omega
              omega
            · intro x hx
              rw [hm'] at hx
              simp only [List.mem_append, List.mem_cons] at hx
              rcases hx with hx | rfl | hx | rfl | hx
              · exact Or.inl (hall x hx)
              · exact Or.inr rfl
              · exact Or.inl (dom_imp_local x (hdomall x hx))
              · exact Or.inl (by decide)
              · exact Or.inl (alpha_imp_local x
                  (List.all_eq_true.mp halpha x hx))
      · rw [if_neg hc] at h; cases h

theorem alpha_imp_dom (c : Char) (h : c.isAlpha = true) :
    isDomChar c = true := by
  simp [isDomChar, h]

theorem exists_last_two (l : List Char) (h : 2 ≤ l.length) :
    ∃ l0 a b, l = l0 ++ [a, b] ∧ a ∈ l ∧ b ∈ l := by
  cases hrev : l.reverse with
  | nil =>
    rw [List.reverse_eq_nil_iff] at hrev
    rw [hrev] at h
    simp at h
  | cons b rest =>
    cases rest with
    | nil =>
      have h1 : l.length = 1 := by
        rw [← List.length_reverse, hrev]
        rfl
      omega
    | cons a rest' =>
      have hl : l = rest'.reverse ++ [a, b] := by
        have h14 : l = l.reverse.reverse := (List.reverse_reverse l).symm
        rw [h14, hrev]
        simp
      refine ⟨rest'.reverse, a, b, hl, ?_, ?_⟩
      · rw [← List.mem_reverse, hrev]
        simp
      · rw [← List.mem_reverse, hrev]
        simp

/-- Finer decomposition of a successful anchored match: the match is a
non-empty all-local run, the `@`, and an all-domain-class part whose
last two characters are letters (the tail of the `[A-Za-z]{2,}` run). -/
theorem matchEmailAt_decomp :
    ∀ (s m after : List Char), matchEmailAt s = some (m, after) →
    ∃ loc dom, m = loc ++ '@' :: dom ∧ loc ≠ []
      ∧ (∀ x ∈ loc, isLocalChar x = true)
      ∧ (∀ x ∈ dom, isDomChar x = true)
      ∧ 4 ≤ dom.length
      ∧ ∃ d0 r1 r2, dom = d0 ++ [r1, r2]
        ∧ r1.isAlpha = true ∧ r2.isAlpha = true := by
  intro s m after h
  unfold matchEmailAt at h
  by_cases hloc : (s.takeWhile isLocalChar).isEmpty
  · rw [if_pos hloc] at h; cases h
  · rw [if_neg hloc] at h
    cases hdrop : s.dropWhile isLocalChar with
    | nil => rw [hdrop] at h; cases h
    | cons c rest =>
      rw [hdrop] at h
      replace h : (if c = '@' then
          match dotSplit (rest.takeWhile isDomChar) with
          | some (pre, run, lo) =>
            if pre.isEmpty then none
            else some (s.takeWhile isLocalChar ++ '@' :: pre ++ '.' :: run,
              lo ++ rest.dropWhile isDomChar)
          | none => none
        else none) = some (m, after) := h
      by_cases hc : c = '@'
      · rw [if_pos hc] at h
        cases hds : dotSplit (rest.takeWhile isDomChar) with
        | none => rw [hds] at h; cases h
        | some p =>
          obtain ⟨pre, run, lo⟩ := p
          rw [hds] at h
          replace h : (if pre.isEmpty then none
              else some (s.takeWhile isLocalChar ++ '@' :: pre ++ '.' :: run,
                lo ++ rest.dropWhile isDomChar)) = some (m, after) := h
          by_cases hpre : pre.isEmpty
          · rw [if_pos hpre] at h; cases h
          · rw [if_neg hpre] at h
            simp only [Option.some.injEq, Prod.mk.injEq] at h
            obtain ⟨hm, _⟩ := h
            obtain ⟨hd, halpha, hlen⟩ :=
              dotSplit_spec (rest.takeWhile isDomChar) pre run lo hds
            have hlocne : s.takeWhile isLocalChar ≠ [] := by
              simpa [List.isEmpty_iff] using hloc
            have hpre' : pre ≠ [] := by
              simpa [List.isEmpty_iff] using hpre
            have hdomall : ∀ x ∈ pre, isDomChar x = true := by
              intro x hx
              have hx' : x ∈ rest.takeWhile isDomChar := by
                rw [hd]
                exact List.mem_append_left _ hx
              exact List.mem_takeWhile_imp hx'
            obtain ⟨run₀, r1, r2, hrun2, hr1m, hr2m⟩ :=
              exists_last_two run hlen
            refine ⟨s.takeWhile isLocalChar, pre ++ '.' :: run, ?_, hlocne,
              fun x hx => List.mem_takeWhile_imp hx, ?_, ?_,
              pre ++ '.' :: run₀, r1, r2, ?_, ?_, ?_⟩
            · rw [← hm]
              simp [List.append_assoc, List.cons_append]
            · intro x hx
              rcases List.mem_append.mp hx with hx | hx
              · exact hdomall x hx
              · rcases List.mem_cons.mp hx with rfl | hx
                · decide
                · exact alpha_imp_dom x (List.all_eq_true.mp halpha x hx)
            · have hp1 : 0 < pre.length := List.length_pos.mpr hpre'
              simp only [List.length_append, List.length_cons]
              omega
            · rw [hrun2]
              simp [List.append_assoc]
            · exact List.all_eq_true.mp halpha r1 hr1m
            · exact List.all_eq_true.mp halpha r2 hr2m
      · rw [if_neg hc] at h; cases h

theorem scanGo_sound :
    ∀ (fuel : Nat) (s m : List Char), m ∈ scanGo fuel s →
    isEmailMatch m = true ∧ ∃ u v, s = u ++ m ++ v := by
  intro fuel
  induction fuel with
  | zero => intro s m h; cases h
  | succ fuel ih =>
    intro s m h
    cases s with
    | nil => cases h
    | cons c rest =>
      simp only [scanGo] at h
      cases hma : matchEmailAt (c :: rest) with
      | some p =>
        obtain ⟨m0, after⟩ := p
        rw [hma] at h
        obtain ⟨hs, hmatch, _, _⟩ := matchEmailAt_spec _ _ _ hma
        rcases List.mem_cons.mp h with rfl | hmem
        · exact ⟨hmatch, [], after, by rw [hs]; simp⟩
        · obtain ⟨hm, u, v, huv⟩ := ih after m hmem
          exact ⟨hm, m0 ++ u, v, by rw [hs, huv]; simp [List.append_assoc]⟩
      | none =>
        rw [hma] at h
        obtain ⟨hm, u, v, huv⟩ := ih rest m h
        exact ⟨hm, c :: u, v, by rw [huv]; simp⟩

theorem matchEmailAt_target (v : List Char)
    (hv : ∀ x, v.head? = some x → isDomChar x = false) :
    matchEmailAt ('a' :: '@' :: 'b' :: '.' :: 'c' :: 'o' :: v)
      = some (['a', '@', 'b', '.', 'c', 'o'], v) := by
  have htk : ('a' :: '@' :: 'b' :: '.' :: 'c' :: 'o' :: v).takeWhile
      isLocalChar = ['a'] := by
    rw [List.takeWhile_cons, if_pos (by decide), List.takeWhile_cons,
      if_neg (by decide)]
  have hdw : ('a' :: '@' :: 'b' :: '.' :: 'c' :: 'o' :: v).dropWhile
      isLocalChar = '@' :: 'b' :: '.' :: 'c' :: 'o' :: v := by
    rw [List.dropWhile_cons, if_pos (by decide), List.dropWhile_cons,
      if_neg (by decide)]
  have htd : ('b' :: '.' :: 'c' :: 'o' :: v).takeWhile isDomChar
      = ['b', '.', 'c', 'o'] := by
    rw [List.takeWhile_cons, if_pos (by decide), List.takeWhile_cons,
      if_pos (by decide), List.takeWhile_cons, if_pos (by decide),
      List.takeWhile_cons, if_pos (by decide),
      takeWhile_eq_nil_of_head isDomChar v hv]
  have hdd : ('b' :: '.' :: 'c' :: 'o' :: v).dropWhile isDomChar = v := by
    rw [List.dropWhile_cons, if_pos (by decide), List.dropWhile_cons,
      if_pos (by decide), List.dropWhile_cons, if_pos (by decide),
      List.dropWhile_cons, if_pos (by decide),
      dropWhile_eq_self_of_head isDomChar v hv]
  unfold matchEmailAt
  rw [htk, hdw]
  rw [if_neg (by decide)]
  show (if '@' = '@' then _ else none) = _
  rw [if_pos rfl, htd, hdd]
  rfl

theorem scanGo_complete :
    ∀ (fuel : Nat) (u v : List Char),
    (u ++ ('a' :: '@' :: 'b' :: '.' :: 'c' :: 'o' :: v)).length ≤ fuel →
    (∀ x, u.getLast? = some x → isLocalChar x = false) →
    (∀ x, v.head? = some x → isDomChar x = false) →
    ['a', '@', 'b', '.', 'c', 'o']
      ∈ scanGo fuel (u ++ ('a' :: '@' :: 'b' :: '.' :: 'c' :: 'o' :: v)) := by
  intro fuel
  induction fuel with
  | zero =>
    intro u v hlen hu hv
    rw [List.length_append] at hlen
    simp at hlen
  | succ fuel ih =>
    intro u v hlen hu hv
    cases u with
    | nil =>
      rw [List.nil_append]
      simp only [scanGo]
      rw [matchEmailAt_target v hv]
      exact List.mem_cons_self _ _
    | cons c u' =>
      rw [List.cons_append]
      simp only [scanGo]
      cases hma : matchEmailAt
          (c :: (u' ++ ('a' :: '@' :: 'b' :: '.' :: 'c' :: 'o' :: v))) with
      | none =>
        refine ih u' v ?_ ?_ hv
        · have h6 := hlen
          simp only [List.length_append, List.length_cons] at h6 ⊢
          omega
        · intro x hx
          refine hu x ?_
          cases u' with
          | nil => cases hx
          | cons d u'' => rw [List.getLast?_cons_cons]; exact hx
      | some p =>
        obtain ⟨m0, after⟩ := p
        obtain ⟨hs_eq, _, hlt, _⟩ := matchEmailAt_spec _ _ _ hma
        refine List.mem_cons_of_mem m0 ?_
        set u₀ := c :: u' with hu₀
        have hu₀ne : u₀ ≠ [] := by simp [hu₀]
        have hlast : u₀.getLast? = some (u₀.getLast hu₀ne) :=
          List.getLast?_eq_getLast u₀ hu₀ne
        have hlastloc := hu _ hlast
        have hm0pre : m0 <+: (u₀ ++ ('a' :: '@' :: 'b' :: '.' :: 'c' :: 'o' :: v)) :=
          ⟨after, hs_eq.symm⟩
        have hu₀pre : u₀ <+: (u₀ ++ ('a' :: '@' :: 'b' :: '.' :: 'c' :: 'o' :: v)) :=
          ⟨_, rfl⟩
        have hm0le : m0.length ≤ u₀.length := by
          by_contra hcon
          push_neg at hcon
          obtain ⟨t, ht⟩ :=
            List.prefix_of_prefix_length_le hu₀pre hm0pre (by omega)
          have hu₀m : u₀ <+: m0 := ⟨t, ht⟩
          have htne : t ≠ [] := by
            intro hnil
            rw [hnil, List.append_nil] at ht
            rw [ht] at hcon
            exact lt_irrefl _ hcon
          obtain ⟨loc, dom, hm0, hlocne2, hlocall, hdomall2, -,
            d0, r1, r2, hdom2, hr1, hr2⟩ := matchEmailAt_decomp _ _ _ hma
          rcases le_or_lt u₀.length loc.length with hA | hB
          · have hlocpre : loc <+: m0 := ⟨'@' :: dom, by rw [hm0]⟩
            obtain ⟨z, hz⟩ :=
              List.prefix_of_prefix_length_le hu₀m hlocpre hA
            have hmem : u₀.getLast hu₀ne ∈ loc := by
              rw [← hz]
              exact List.mem_append_left _ (List.getLast_mem hu₀ne)
            have h12 := hlocall _ hmem
            rw [hlastloc] at h12
            cases h12
          · have hla : (loc ++ ['@']) <+: m0 :=
              ⟨dom, by rw [hm0]; simp [List.append_assoc]⟩
            have hlau : (loc ++ ['@']) <+: u₀ :=
              List.prefix_of_prefix_length_le hla hu₀m
                (by
                  simp only [List.length_append, List.length_cons,
                    List.length_nil]
                  omega)
            obtain ⟨w, hw⟩ := hlau
            have hdomwt : dom = w ++ t := by
              have h13 : (loc ++ ['@']) ++ dom
                  = (loc ++ ['@']) ++ (w ++ t) := by
                rw [← List.append_assoc, hw, ht, hm0]
                simp [List.append_assoc]
              exact List.append_cancel_left h13
            have hX : t ++ after
                = 'a' :: '@' :: 'b' :: '.' :: 'c' :: 'o' :: v := by
              have h7 : u₀ ++ (t ++ after)
                  = u₀ ++ ('a' :: '@' :: 'b' :: '.' :: 'c' :: 'o' :: v) := by
                rw [← List.append_assoc, ht, ← hs_eq]
                rfl
              exact List.append_cancel_left h7
            cases t with
            | nil => exact htne rfl
            | cons t0 ts =>
              cases ts with
              | cons t1 ts' =>
                have h20 : t1 ∈ t0 :: t1 :: ts' := by simp
                have h21 := hdomall2 t1
                  (by rw [hdomwt]; exact List.mem_append_right _ h20)
                have h22 : t1 = '@' := by
                  have h23 := hX
                  simp only [List.cons_append, List.cons.injEq] at h23
                  exact h23.2.1
                rw [h22] at h21
                exact absurd h21 (by decide)
              | nil =>
                have h9 : (d0 ++ [r1]) ++ [r2] = w ++ [t0] := by
                  rw [List.append_assoc]
                  show d0 ++ [r1, r2] = w ++ [t0]
                  rw [← hdom2]
                  exact hdomwt
                obtain ⟨hw2, -⟩ := List.append_inj' h9 rfl
                have hul : u₀.getLast? = some r1 := by
                  rw [← hw, List.getLast?_append, ← hw2,
                    List.getLast?_append]
                  rfl
                have h10 := hu r1 hul
                have h11 := alpha_imp_local r1 hr1
                rw [h10] at h11
                cases h11
        obtain ⟨u₂, hu₂⟩ :=
          List.prefix_of_prefix_length_le hm0pre hu₀pre hm0le
        have hafter : after
            = u₂ ++ ('a' :: '@' :: 'b' :: '.' :: 'c' :: 'o' :: v) := by
          have h2 : m0 ++ after
              = m0 ++ (u₂ ++ ('a' :: '@' :: 'b' :: '.' :: 'c' :: 'o' :: v)) := by
            rw [← hs_eq, ← List.append_assoc, hu₂]
            rfl
          exact List.append_cancel_left h2
        rw [hafter]
        refine ih u₂ v ?_ ?_ hv
        · rw [← hafter]
          have h4 : (c :: (u' ++ ('a' :: '@' :: 'b' :: '.' :: 'c' :: 'o' :: v))).length
              ≤ fuel + 1 := hlen
          have h5 := hlt
          simp only [List.length_cons] at h4 h5
          omega
        · intro x hx
          refine hu x ?_
          show u₀.getLast? = some x
          rw [← hu₂, List.getLast?_append, hx]
          rfl

theorem mem_insertLe (x : List Char) :
    ∀ (l : List (List Char)) (y : List Char),
    y ∈ insertLe x l ↔ y = x ∨ y ∈ l := by
  intro l
  induction l with
  | nil => intro y; simp [insertLe]
  | cons z zs ih =>
    intro y
    simp only [insertLe]
    by_cases h : lexLt x z = true
    · rw [if_pos h]
      simp
    · rw [if_neg h]
      simp only [List.mem_cons, ih y]
      tauto

theorem mem_sortLex : ∀ (l : List (List Char)) (y : List Char),
    y ∈ sortLex l ↔ y ∈ l := by
  intro l
  induction l with
  | nil => intro y; simp [sortLex]
  | cons z zs ih =>
    intro y
    show y ∈ insertLe z (sortLex zs) ↔ _
    rw [mem_insertLe]
    simp only [List.mem_cons, ih y]

theorem extract_sound (html : String) (e : String)
    (h : e ∈ extract_emails_from_html html) :
    ∃ m u v, html.toList = u ++ m ++ v ∧ isEmailMatch m = true
      ∧ e = String.mk (unquoteL m) := by
  unfold extract_emails_from_html at h
  rw [List.mem_map] at h
  obtain ⟨l, hl, he⟩ := h
  rw [mem_sortLex, List.mem_dedup, List.mem_map] at hl
  obtain ⟨m, hm, hum⟩ := hl
  obtain ⟨hmatch, u, v, huv⟩ := scanGo_sound _ _ _ hm
  exact ⟨m, u, v, huv, hmatch, by rw [← he, ← hum]⟩

/-- C9 counterexample: `re.findall` returns the leftmost greedy match;
for the text `xa@b.co` the function returns `{"xa@b.co"}` even though
`a@b.co` is a substring matching the email pattern, so the result is
neither `the set of substrings matching the pattern` nor guaranteed to
contain `a@b.co` whenever the text contains it literally. -/
theorem c9_email_extractor_counterexample :
    extract_emails_from_html "xa@b.co" = ["xa@b.co"]
    ∧ isEmailMatch "a@b.co".toList = true
    ∧ "xa@b.co".toList = ['x'] ++ "a@b.co".toList ++ []
    ∧ "a@b.co" ∉ extract_emails_from_html "xa@b.co" :=
  ⟨by decide, by decide, by decide, by decide⟩

/-- C9 (amended): the extractor never fails and returns the
percent-decoded, deduplicated set of the scanner's leftmost
non-overlapping greedy matches: every returned string is the decoding
of a substring of the text that fully matches the email pattern, the
result is empty when no substring matches the pattern, and the set
contains `a@b.co` whenever the text contains it at an occurrence not
immediately preceded by a local-part character and not immediately
followed by a domain character. -/
theorem c9_email_extractor :
    (∀ html e, e ∈ extract_emails_from_html html →
      ∃ m u v, html.toList = u ++ m ++ v ∧ isEmailMatch m = true
        ∧ e = String.mk (unquoteL m))
    ∧ (∀ html,
        (∀ m u v, html.toList = u ++ m ++ v → isEmailMatch m = false) →
        extract_emails_from_html html = [])
    ∧ (∀ html u v, html.toList = u ++ "a@b.co".toList ++ v →
        (∀ x, u.getLast? = some x → isLocalChar x = false) →
        (∀ x, v.head? = some x → isDomChar x = false) →
        "a@b.co" ∈ extract_emails_from_html html) := by
  refine ⟨extract_sound, ?_, ?_⟩
  · intro html hno
    cases hx : extract_emails_from_html html with
    | nil => rfl
    | cons e t =>
      exfalso
      obtain ⟨m, u, v, huv, hmatch, _⟩ :=
        extract_sound html e (hx ▸ List.mem_cons_self e t)
      rw [hno m u v huv] at hmatch
      cases hmatch
  · intro html u v heq hu hv
    have hmem : ['a', '@', 'b', '.', 'c', 'o'] ∈ scanEmails html.toList := by
      unfold scanEmails
      rw [heq]
      have hflat : u ++ "a@b.co".toList ++ v
          = u ++ ('a' :: '@' :: 'b' :: '.' :: 'c' :: 'o' :: v) := by
        simp [List.append_assoc]
      rw [hflat]
      exact scanGo_complete _ u v (le_refl _) hu hv
    unfold extract_emails_from_html
    rw [List.mem_map]
    refine ⟨['a', '@', 'b', '.', 'c', 'o'], ?_, by decide⟩
    rw [mem_sortLex, List.mem_dedup, List.mem_map]
    exact ⟨['a', '@', 'b', '.', 'c', 'o'], hmem, by decide⟩

/-- Witness for the amended C9 on the text `"x@a@b.co "`: the
character before the occurrence is `@`, which is not a local-part
character, and the match is still returned. -/
theorem c9_email_extractor_witness :
    "a@b.co" ∈ extract_emails_from_html "x@a@b.co " :=
  c9_email_extractor.2.2 "x@a@b.co " ['x', '@'] [' ']
    (by decide)
    (fun x hx => by
      injection hx with h
      subst h
      decide)
    (fun x hx => by
      injection hx with h
      subst h
      decide)

end Scraper
